import Mathlib

/-!
Verification of the `unusedeps` CLI (a TypeScript tool that detects and removes unused
npm dependencies) against its natural-language specification.

The development shallowly embeds the functional core of the single source file:

* `getFiles`   : the recursive directory walk (symlink-cycle safe via a visited set of
  real paths), embedded with an explicit fuel parameter since the source recursion is
  bounded only by the finiteness of the file system; `none` marks fuel exhaustion.
* `dependencyUsed`, `scriptUsed` : the substring-based usage detectors.
* `remove`     : the sequential uninstall loop (commands issued and lines printed),
  parametrised by which invocations fail and by the elapsed wall-clock milliseconds.
* `parseSelection`, `handlerRun` : the interactive prompt handler.
* `execIssue` / `execComplete` / `ExecReach` : a small event-loop semantics for the
  asynchronous `exec` calls, used to reason about how many uninstall commands are in
  flight simultaneously.

File systems are modelled as finite lookup tables.  Paths are lists of components
(entry names); joining a directory path `p` with an entry `e` is `p ++ [e]`, which
matches the source's `path.join` given that components contain no separator.
-/

/-- The single-quote character, written via its code point to keep source quoting
uniform when building the search patterns of the usage detector. -/
def sqc : Char := Char.ofNat 39

/-- The double-quote character. -/
def dqc : Char := Char.ofNat 34

/-- Boolean test that `pre` is an initial segment of `s` (character lists). -/
def strStarts : List Char → List Char → Bool
  | [], _ => true
  | _ :: _, [] => false
  | a :: as, b :: bs => a == b && strStarts as bs

/-- Boolean substring occurrence test on character lists, the semantics of
JavaScript's `String.prototype.includes`. -/
def subOccurs (needle : List Char) : List Char → Bool
  | [] => strStarts needle []
  | c :: rest => strStarts needle (c :: rest) || subOccurs needle rest

/-- JavaScript's `hay.includes(needle)`. -/
def strContains (hay needle : String) : Bool := subOccurs needle.data hay.data

/-- The characters after the last dot of the list, if any (helper for `extname`). -/
def lastDotSuffix : List Char → Option (List Char)
  | [] => none
  | c :: rest =>
    match lastDotSuffix rest with
    | some r => some r
    | none => if c == '.' then some rest else none

/-- Node's `path.extname` on a bare entry name: the suffix from the last dot,
where a dot in the first position starts no extension (dotfiles have none). -/
def extname (s : String) : String :=
  match s.data with
  | [] => ""
  | _ :: rest =>
    match lastDotSuffix rest with
    | none => ""
    | some suf => String.mk ('.' :: suf)

/-- The extension allowlist of `getFiles` (source line 36). -/
def extensions : List String := [".js", ".ts", ".jsx", ".tsx", ".mjs", ".cjs"]

/-- The fixed exclusion list of the usage detector (source lines 16-18). -/
def exclusions : List String := ["typescript"]

/-- A file-system path as a list of entry-name components. -/
abbrev FPath := List String

/-- What `lstat` reports for a directory entry. -/
inductive EntryKind
  | file
  | dir
  | symlink
deriving DecidableEq

/-- A finite file system, as lookup tables: `links` models `fs.realpathSync`
(absence models a thrown error), `dirs` models `fs.readdirSync` on real paths,
`stats` models `fs.lstatSync`, `contents` models `fs.readFileSync`. -/
structure FS where
  links : List (FPath × FPath)
  dirs : List (FPath × List String)
  stats : List (FPath × EntryKind)
  contents : List (FPath × String)

/-- fs.realpathSync: `none` models a thrown error (caught by the source's try block). -/
def FS.realpath (fs : FS) (p : FPath) : Option FPath :=
  (fs.links.find? (fun e => e.1 == p)).map (fun e => e.2)

/-- fs.readdirSync on a real path: `none` models a thrown error. -/
def FS.listDir (fs : FS) (p : FPath) : Option (List String) :=
  (fs.dirs.find? (fun e => e.1 == p)).map (fun e => e.2)

/-- fs.lstatSync: `none` models a thrown error (the source then does `continue`). -/
def FS.lstat (fs : FS) (p : FPath) : Option EntryKind :=
  (fs.stats.find? (fun e => e.1 == p)).map (fun e => e.2)

/-- fs.readFileSync, total with default contents for unknown paths. -/
def FS.readFile (fs : FS) (p : FPath) : String :=
  ((fs.contents.find? (fun e => e.1 == p)).map (fun e => e.2)).getD ""

/-- All real paths the file system can ever report: the range of `realpath`.
Every insertion into the visited set is an element of this list, which is what
bounds the recursion depth of the directory walk. -/
def FS.univ (fs : FS) : List FPath := fs.links.map (fun e => e.2)

/-- The skip test of source line 51 applied to one component:
`includes('node_modules') || includes('.vscode') || includes('.git')`. -/
def containsSkipStr (s : String) : Bool :=
  strContains s "node_modules" || strContains s ".vscode" || strContains s ".git"

/-- The skip test on a whole path.  The source tests the joined path string; since
none of the three needles contains a separator, an occurrence in the joined string
is exactly an occurrence inside a single component. -/
def containsSkipPath (p : FPath) : Bool := p.any containsSkipStr

/-- One iteration of the `for (const file of list)` loop of `getFiles`
(source lines 38-56), abstracted over the recursive call `rec` used for
subdirectories.  State: accumulated results and the shared visited set. -/
def getFilesEntries (fs : FS) (rec : FPath → List FPath → Option (List FPath × List FPath))
    (rp : FPath) : List String → List FPath → Option (List FPath × List FPath)
  | [], visited => some ([], visited)
  | e :: rest, visited =>
    let fp := rp ++ [e]
    match fs.lstat fp with
    | none => getFilesEntries fs rec rp rest visited
    | some EntryKind.symlink => getFilesEntries fs rec rp rest visited
    | some EntryKind.dir =>
      if containsSkipPath fp then getFilesEntries fs rec rp rest visited
      else
        match rec fp visited with
        | none => none
        | some (r1, v1) =>
          match getFilesEntries fs rec rp rest v1 with
          | none => none
          | some (r2, v2) => some (r1 ++ r2, v2)
    | some EntryKind.file =>
      if extensions.contains (extname e) then
        match getFilesEntries fs rec rp rest visited with
        | none => none
        | some (r, v) => some (fp :: r, v)
      else getFilesEntries fs rec rp rest visited

/-- The body of `getFiles` (source lines 27-62) for one directory, abstracted over
the recursive call: resolve the real path (errors yield the empty result), cut off
if already visited, record the real path as visited, then walk the entries. -/
def getFilesGo (fs : FS) (rec : FPath → List FPath → Option (List FPath × List FPath))
    (dir : FPath) (visited : List FPath) : Option (List FPath × List FPath) :=
  match fs.realpath dir with
  | none => some ([], visited)
  | some rp =>
    if rp ∈ visited then some ([], visited)
    else
      match fs.listDir rp with
      | none => some ([], rp :: visited)
      | some entries => getFilesEntries fs (fun d v => rec d v) rp entries (rp :: visited)

/-- The embedding of `getFiles`: the source recursion, with fuel counting nesting
depth.  `none` signals fuel exhaustion; the termination theorem shows any fuel
larger than the number of real paths in the file system suffices. -/
def getFiles (fs : FS) : Nat → FPath → List FPath → Option (List FPath × List FPath)
  | 0, _, _ => none
  | fuel + 1, dir, visited => getFilesGo fs (fun d v => getFiles fs fuel d v) dir visited

-- Sanity checks of the embedding on concrete file systems.
example :
    getFiles ⟨[(["p"], ["p"])], [(["p"], ["a.js", "b.txt"])],
      [((["p", "a.js"] : FPath), EntryKind.file), ((["p", "b.txt"] : FPath), EntryKind.file)], []⟩
      2 ["p"] [] = some ([["p", "a.js"]], [["p"]]) := by decide

example :
    getFiles ⟨[(["r"], ["r"]), (["r", "sub"], ["r"])], [(["r"], ["sub", "x.js"])],
      [((["r", "sub"] : FPath), EntryKind.dir), ((["r", "x.js"] : FPath), EntryKind.file)], []⟩
      3 ["r"] [] = some ([["r", "x.js"]], [["r"]]) := by decide

/-- The dependency name wrapped in the given quote character. -/
def quoted (q : Char) (dep : String) : String := String.mk (q :: dep.data ++ [q])

/-- The seven literal search patterns of `dependencyUsed` (source lines 81-87),
tested as substrings of the file contents, in source order. -/
def matchesUsage (content dep : String) : Bool :=
  strContains content ("require(" ++ quoted sqc dep ++ ")") ||
  strContains content ("import " ++ quoted sqc dep) ||
  strContains content ("import " ++ quoted dqc dep) ||
  strContains content ("from " ++ quoted sqc dep) ||
  strContains content ("from " ++ quoted dqc dep) ||
  strContains content ("import(" ++ quoted sqc dep ++ ")") ||
  strContains content ("import(" ++ quoted dqc dep ++ ")")

/-- The embedding of `dependencyUsed` (source lines 70-89): collect the files of
the working directory, then test `files.some` of the per-file predicate, which
short-circuits to true for excluded or `@types/`-scoped names and otherwise
tests the seven patterns against the file contents.  When the walk exhausts its
fuel the result is the vacuous `false` (never reached with adequate fuel). -/
def dependencyUsed (fs : FS) (fuel : Nat) (cwd : FPath) (dependency : String) : Bool :=
  match getFiles fs fuel cwd [] with
  | none => false
  | some (files, _) =>
    files.any (fun file =>
      if exclusions.contains dependency || strStarts "@types/".data dependency.data then true
      else matchesUsage (fs.readFile file) dependency)

/-- The parsed project manifest (the `PackageJSON` interface of source lines 9-13),
with each mapping as an ordered key-value list reflecting JavaScript object key
order. -/
structure PackageJSON where
  scripts : List (String × String)
  dependencies : List (String × String)
  devDependencies : List (String × String)

/-- The embedding of `scriptUsed` (source lines 97-100): some script value contains
the dependency name as a substring. -/
def scriptUsed (pkg : PackageJSON) (dependency : String) : Bool :=
  (pkg.scripts.map (fun e => e.2)).any (fun script => strContains script dependency)

/-- The candidate list of `main` (source line 163): keys of `dependencies`
concatenated with keys of `devDependencies`. -/
def allDeps (pkg : PackageJSON) : List String :=
  pkg.dependencies.map (fun e => e.1) ++ pkg.devDependencies.map (fun e => e.1)

/-- The unused computation of `main` (source line 164). -/
def computeUnused (fs : FS) (fuel : Nat) (cwd : FPath) (pkg : PackageJSON) : List String :=
  (allDeps pkg).filter (fun dep => !dependencyUsed fs fuel cwd dep && !scriptUsed pkg dep)

/-- How JavaScript renders a selection entry in the uninstall command template:
an out-of-range index yields `undefined`, which stringifies to the literal text
`undefined`. -/
def optName : Option String → String
  | some s => s
  | none => "undefined"

/-- The uninstall command of source line 138:
`npm uninstall ${dep} ${global ? '-g' : ''}` (note the space before the flag slot). -/
def cmdStr (dep : Option String) (g : Bool) : String :=
  "npm uninstall " ++ optName dep ++ " " ++ (if g then "-g" else "")

/-- The per-item success line of source line 144. -/
def okLine (dep : Option String) : String := "- Removed " ++ optName dep

/-- The per-item failure line of source line 140 (the appended stderr detail is
not modelled). -/
def errLine (dep : Option String) : String := "\nError uninstalling " ++ optName dep ++ ":"

/-- Decimal digit character for a value below ten. -/
def digitCharOf (n : Nat) : Char := Char.ofNat (48 + n)

/-- The two fractional digits of `(ms / 1000).toFixed(2)`, with `ms` in
milliseconds: centiseconds rounded half-up (the fixed-point reading of the
source's float formatting). -/
def secondsFrac (ms : Nat) : String :=
  String.mk [digitCharOf ((ms + 5) / 10 / 10 % 10), digitCharOf ((ms + 5) / 10 % 10)]

/-- The elapsed-seconds string of source line 131, two decimal places. -/
def secondsString (ms : Nat) : String :=
  toString ((ms + 5) / 10 / 100) ++ "." ++ secondsFrac ms

/-- The summary line of source line 132, reporting the length of the input list. -/
def summaryLine (n : Nat) (ms : Nat) : String :=
  "\nRemoved " ++ toString n ++ " dependenc" ++ (if 1 < n then "ies" else "y") ++
    " in " ++ secondsString ms ++ " seconds."

/-- The completed run of the `uninstallNext` callback chain (source lines 129-149)
from a given index: first component the uninstall commands issued (one per
remaining entry, failure or not), second the lines printed (per-item line for
each entry, then the summary).  `fail i` says whether the command for index `i`
exits with an error, `ms` is the measured elapsed time in milliseconds. -/
def uninstallNext (fail : Nat → Bool) (g : Bool) (nTotal ms : Nat) :
    List (Option String) → Nat → List String × List String
  | [], _ => ([], [summaryLine nTotal ms])
  | d :: rest, index =>
    let next := uninstallNext fail g nTotal ms rest (index + 1)
    (cmdStr d g :: next.1, (if fail index then errLine d else okLine d) :: next.2)

/-- The embedding of `remove` (source lines 124-152) as its completed run:
empty input returns immediately (no commands, no output), otherwise the callback
chain runs from index 0. -/
def remove (deps : List (Option String)) (g : Bool) (fail : Nat → Bool) (ms : Nat) :
    List String × List String :=
  if deps.length = 0 then ([], []) else uninstallNext fail g deps.length ms deps 0

/-- The digit characters of the user's answer: `answer.match(/\d/g)` (source
line 180) matched individually, in order. -/
def jsDigits (s : String) : List Char := s.data.filter Char.isDigit

/-- JavaScript array indexing with a possibly negative index: `undefined` (here
`none`) for a negative or out-of-range index. -/
def jsIndex (l : List String) (i : Int) : Option String :=
  if 0 ≤ i then l.get? i.toNat else none

/-- The numeric value of a digit character, as an integer. -/
def digitVal (c : Char) : Int := Int.ofNat c.toNat - 48

/-- Deduplication keeping first occurrences in order, the semantics of
`[...new Set(list)]` (source line 180). -/
def dedupJSAux {α : Type} [DecidableEq α] (seen : List α) : List α → List α
  | [] => []
  | x :: xs => if x ∈ seen then dedupJSAux seen xs else x :: dedupJSAux (x :: seen) xs

/-- JavaScript's `[...new Set(list)]`. -/
def dedupJS {α : Type} [DecidableEq α] (l : List α) : List α := dedupJSAux [] l

/-- The selection computation of source line 180: every single digit character of
the answer, each mapped through `combined[digit - 1]`, then deduplicated. -/
def parseSelection (combined : List String) (answer : String) : List (Option String) :=
  dedupJS ((jsDigits answer).map (fun c => jsIndex combined (digitVal c - 1)))

/-- ASCII lowering of the answer, `answer.toLowerCase()` for the inputs at play. -/
def lowerStr (s : String) : String := String.mk (s.data.map Char.toLower)

/-- JavaScript's `globalDeps.includes(entry)` on a selection entry: `undefined`
is never an element of the (string) global list. -/
def jsMember (l : List String) : Option String → Bool
  | some s => l.contains s
  | none => false

/-- The completed run of the `rl.question` callback (source lines 172-184):
the pair of all uninstall commands issued and all lines printed, with the local
`remove` call's effects listed before the global one's.  `failL`/`failG` and
`msL`/`msG` parametrise the two `remove` invocations' command failures and
measured elapsed times. -/
def handlerRun (unused globalDeps : List String) (answer : String)
    (failL failG : Nat → Bool) (msL msG : Nat) : List String × List String :=
  if lowerStr answer == "all" then
    let r1 := remove (unused.map some) false failL msL
    let r2 := remove (globalDeps.map some) true failG msG
    (r1.1 ++ r2.1, r1.2 ++ r2.2)
  else
    let sel := parseSelection (unused ++ globalDeps) answer
    let r1 := remove (sel.filter (fun d => !jsMember globalDeps d)) false failL msL
    let r2 := remove (sel.filter (fun d => jsMember globalDeps d)) true failG msG
    (r1.1 ++ r2.1, r1.2 ++ r2.2)

-- Sanity checks.
example : parseSelection ["a", "b", "c", "d", "e"] "2,4" = [some "b", some "d"] := by decide
example : parseSelection ["a", "b", "c", "d", "e"] "2,10" = [some "b", some "a", none] := by decide
example : remove [] true (fun _ => false) 7 = ([], []) := by decide
example :
    remove [some "x"] false (fun _ => false) 0 =
      (["npm uninstall x "], ["- Removed x", "\nRemoved 1 dependency in 0.00 seconds."]) := by
  decide
example : matchesUsage ("import " ++ quoted sqc "lodash") "lodash" = true := by decide
example : matchesUsage ("import " ++ quoted sqc "lodash-es") "lodash" = false := by decide

/-- State of the Node event loop during the removal phase: the `exec` invocations
currently in flight (each carrying its scope flag and the rest of its batch, the
continuation of `uninstallNext`), and the trace of issued commands in order
(dependency entry and scope flag). -/
structure ExecState where
  inflight : List (Option String × Bool × List (Option String))
  issued : List (Option String × Bool)
deriving DecidableEq

/-- Issuing the next command of a batch (`uninstallNext`, source lines 129-151):
an empty remainder issues nothing (the summary prints instead), otherwise one
`exec` starts asynchronously and the rest of the batch becomes its continuation. -/
def execIssue (deps : List (Option String)) (g : Bool) (s : ExecState) : ExecState :=
  match deps with
  | [] => s
  | d :: rest => ⟨s.inflight ++ [(d, g, rest)], s.issued ++ [(d, g)]⟩

/-- The synchronous part of a `remove` call (source lines 124-151): the empty-list
guard, then `uninstallNext(0)` issues the first command and returns — `exec` is
asynchronous, so the call returns with that command still in flight. -/
def removeStart (deps : List (Option String)) (g : Bool) (s : ExecState) : ExecState :=
  if deps.length = 0 then s else execIssue deps g s

/-- The synchronous part of the `"all"` branch (source lines 175-177):
`remove(unused)` then `remove(global, true)` run back to back, before any exec
callback can run. -/
def allStart (unused globalDeps : List String) : ExecState :=
  removeStart (globalDeps.map some) true (removeStart (unused.map some) false ⟨[], []⟩)

/-- Completion of the in-flight command at position `i`: its callback runs
`uninstallNext(index + 1)`, issuing the next command of that batch, if any. -/
def execComplete (s : ExecState) (i : Nat) : ExecState :=
  match s.inflight.get? i with
  | none => s
  | some (_, g, rest) => execIssue rest g ⟨s.inflight.eraseIdx i, s.issued⟩

/-- Reachability in the event-loop semantics: the states the removal phase can be
in after the synchronous start and any sequence of command completions, in any
completion order. -/
inductive ExecReach (s0 : ExecState) : ExecState → Prop
  | refl : ExecReach s0 s0
  | step {s : ExecState} (h : ExecReach s0 s) (i : Nat) : ExecReach s0 (execComplete s i)

/-- The in-flight entries of one scope (local or global), without the flag. -/
def flightOf (s : ExecState) (b : Bool) : List (Option String × List (Option String)) :=
  (s.inflight.filter (fun e => e.2.1 == b)).map (fun e => (e.1, e.2.2))

/-- The issued commands of one scope, in issue order. -/
def issuedOf (s : ExecState) (b : Bool) : List (Option String) :=
  (s.issued.filter (fun e => e.2 == b)).map (fun e => e.1)

/-- The shape of one batch during its lifetime: either not started or fully
issued (nothing of it in flight), or exactly one command in flight — the one at
the boundary between the issued prefix and the unissued remainder. -/
def BatchInv (deps issuedB : List (Option String))
    (flightB : List (Option String × List (Option String))) : Prop :=
  (flightB = [] ∧ (issuedB = [] ∨ issuedB = deps)) ∨
    ∃ pre d rest, deps = pre ++ d :: rest ∧ issuedB = pre ++ [d] ∧ flightB = [(d, rest)]

/-- The event-loop invariant of the `"all"` branch: each scope's batch has the
`BatchInv` shape, and when the local list is nonempty the very first issued
command is its head, local-scoped. -/
def RemInv (u g : List String) (s : ExecState) : Prop :=
  BatchInv (u.map some) (issuedOf s false) (flightOf s false) ∧
    BatchInv (g.map some) (issuedOf s true) (flightOf s true) ∧
    ∀ d t, u = d :: t → ∃ rest, s.issued = (some d, false) :: rest

-- Sanity checks: both batches' first commands are in flight right after the
-- synchronous phase, and completing one issues that batch's next command.
example : (allStart ["a"] ["b"]).inflight.length = 2 := by decide
example :
    (execComplete (allStart ["a", "c"] ["b"]) 0).inflight =
      [(some "b", true, []), (some "c", false, [])] := by decide

/-! ### Helper lemmas about deduplication and the uninstall loop -/

theorem dedupJSAux_mem {α : Type} [DecidableEq α] (x : α) :
    ∀ (l seen : List α), x ∈ dedupJSAux seen l ↔ x ∈ l ∧ x ∉ seen := by
  intro l
  induction l with
  | nil => intro seen; simp [dedupJSAux]
  | cons a t ih =>
    intro seen
    by_cases ha : a ∈ seen
    · by_cases hxa : x = a
      · subst hxa; simp [dedupJSAux, if_pos ha, ih, ha]
      · simp [dedupJSAux, if_pos ha, ih, hxa]
    · by_cases hxa : x = a
      · subst hxa; simp [dedupJSAux, if_neg ha, ha]
      · simp [dedupJSAux, if_neg ha, ih, hxa]

theorem dedupJS_mem {α : Type} [DecidableEq α] (x : α) (l : List α) :
    x ∈ dedupJS l ↔ x ∈ l := by
  simp [dedupJS, dedupJSAux_mem]

theorem dedupJSAux_nodup {α : Type} [DecidableEq α] :
    ∀ (l seen : List α), (dedupJSAux seen l).Nodup := by
  intro l
  induction l with
  | nil => intro seen; simp [dedupJSAux]
  | cons a t ih =>
    intro seen
    by_cases ha : a ∈ seen
    · simpa [dedupJSAux, if_pos ha] using ih seen
    · rw [dedupJSAux, if_neg ha]
      refine List.Nodup.cons ?_ (ih (a :: seen))
      intro hmem
      exact ((dedupJSAux_mem a t (a :: seen)).mp hmem).2 (List.mem_cons_self a seen)

theorem dedupJS_nodup {α : Type} [DecidableEq α] (l : List α) : (dedupJS l).Nodup :=
  dedupJSAux_nodup l []

/-- Reference description of the printed per-item lines: one line per entry, an
error line exactly for the failing indices. -/
def mkLines (fail : Nat → Bool) : Nat → List (Option String) → List String
  | _, [] => []
  | i, d :: ds => (if fail i then errLine d else okLine d) :: mkLines fail (i + 1) ds

theorem mkLines_length (fail : Nat → Bool) :
    ∀ (ds : List (Option String)) (i : Nat), (mkLines fail i ds).length = ds.length := by
  intro ds
  induction ds with
  | nil => intro i; rfl
  | cons d t ih => intro i; simp [mkLines, ih]

theorem mkLines_get (fail : Nat → Bool) :
    ∀ (ds : List (Option String)) (i j : Nat),
      (mkLines fail i ds).get? j =
        (ds.get? j).map (fun d => if fail (i + j) then errLine d else okLine d) := by
  intro ds
  induction ds with
  | nil => intro i j; simp [mkLines]
  | cons d t ih =>
    intro i j
    cases j with
    | zero => simp [mkLines]
    | succ j =>
      have harith : i + (j + 1) = i + 1 + j := by omega
      have hstep : (mkLines fail i (d :: t)).get? (j + 1) = (mkLines fail (i + 1) t).get? j := rfl
      rw [hstep, ih (i + 1) j, harith]
      rfl

theorem uninstallNext_eq (fail : Nat → Bool) (g : Bool) (n ms : Nat) :
    ∀ (ds : List (Option String)) (i : Nat),
      uninstallNext fail g n ms ds i =
        (ds.map (fun d => cmdStr d g), mkLines fail i ds ++ [summaryLine n ms]) := by
  intro ds
  induction ds with
  | nil => intro i; rfl
  | cons d t ih =>
    intro i
    have hstep : uninstallNext fail g n ms (d :: t) i =
        (cmdStr d g :: (uninstallNext fail g n ms t (i + 1)).1,
          (if fail i then errLine d else okLine d) :: (uninstallNext fail g n ms t (i + 1)).2) :=
      rfl
    rw [hstep, ih (i + 1)]
    rfl

/-! ### Claim C10: `remove` on the empty list -/

/-- Claim C10: `remove` called with an empty dependency list performs no external
invocation and prints nothing, in particular no summary line. -/
theorem c10_remove_empty (g : Bool) (fail : Nat → Bool) (ms : Nat) :
    remove [] g fail ms = ([], []) := rfl

/-! ### Claim C8: the remover continues past failures and reports the full count -/

/-- Claim C8: on a nonempty list, `remove` issues one uninstall command per entry
(a failure does not stop the remaining items), prints one line per entry — the
error line exactly for the failing indices, the confirmation otherwise — and ends
with the summary line reporting the full input count and the elapsed seconds
formatted with exactly two decimal places. -/
theorem c8_remove_continues (deps : List (Option String)) (g : Bool)
    (fail : Nat → Bool) (ms : Nat) (h : deps ≠ []) :
    (remove deps g fail ms).1 = deps.map (fun d => cmdStr d g) ∧
    (remove deps g fail ms).2 = mkLines fail 0 deps ++ [summaryLine deps.length ms] ∧
    (∀ j d, deps.get? j = some d →
      (remove deps g fail ms).2.get? j = some (if fail j then errLine d else okLine d)) ∧
    (secondsFrac ms).length = 2 := by
  have hlen : ¬ deps.length = 0 := by simpa [List.length_eq_zero] using h
  have hrun : remove deps g fail ms =
      (deps.map (fun d => cmdStr d g), mkLines fail 0 deps ++ [summaryLine deps.length ms]) := by
    simp [remove, hlen, uninstallNext_eq]
  refine ⟨by rw [hrun], by rw [hrun], ?_, rfl⟩
  intro j d hj
  have hjlt : j < deps.length := (List.get?_eq_some.mp hj).1
  have hjlt2 : j < (mkLines fail 0 deps).length := by rwa [mkLines_length]
  rw [hrun]
  rw [List.get?_append hjlt2, mkLines_get, hj]
  simp

/-- Witness for C8: three dependencies with the second failing — both surrounding
items still produce their lines and the summary reports all three. -/
theorem c8_remove_continues_w :
    (remove [some "a", some "b", some "c"] false (fun i => i == 1) 1500).2 =
      mkLines (fun i => i == 1) 0 [some "a", some "b", some "c"] ++
        [summaryLine 3 1500] :=
  (c8_remove_continues [some "a", some "b", some "c"] false (fun i => i == 1) 1500
    (by decide)).2.1

/-! ### Claim C1: the selection computation -/

/-- Counterexample for C1 as stated: on a 5-item combined list, input `2,10` does
not select only the entry at 0-based index 1 — the digits of `10` are matched
individually, selecting index 0 as well, and the out-of-range digit `0`
contributes an undefined entry. -/
theorem c1_selection_cex :
    parseSelection ["a", "b", "c", "d", "e"] "2,10" = [some "b", some "a", none] ∧
      ([some "b", some "a", none] : List (Option String)) ≠ [some "b"] := by
  decide

/-- Claim C1 (amended): the selection extracts every single decimal digit
character of the input, maps digit `d` to the entry at 1-based position `d` of
the concatenated list (an out-of-range digit yielding an undefined entry that is
retained), and deduplicates keeping first occurrences.  Input `2,4` on five
items selects 0-based indices 1 and 3; input `2,10` selects indices 1 and 0 plus
one undefined entry.  A defined entry is selected exactly when some digit of the
input indexes it, and the selection is duplicate-free. -/
theorem c1_selection_amended :
    parseSelection ["a", "b", "c", "d", "e"] "2,4" = [some "b", some "d"] ∧
    parseSelection ["a", "b", "c", "d", "e"] "2,10" = [some "b", some "a", none] ∧
    (∀ (combined : List String) (answer : String) (e : String),
      some e ∈ parseSelection combined answer ↔
        ∃ c, c ∈ jsDigits answer ∧ jsIndex combined (digitVal c - 1) = some e) ∧
    (∀ (combined : List String) (answer : String),
      (parseSelection combined answer).Nodup) := by
  refine ⟨by decide, by decide, ?_, ?_⟩
  · intro combined answer e
    simp [parseSelection, dedupJS_mem, List.mem_map]
  · intro combined answer
    exact dedupJS_nodup _

/-! ### Claim C2: excluded and `@types/` names -/

/-- Counterexample for C2 as stated: `typescript` is on the exclusion list, yet
against a project with no candidate source file `dependencyUsed` returns false,
because the exclusion short-circuit lives inside `files.some` and an empty file
list makes `some` false. -/
theorem c2_excluded_cex :
    exclusions.contains "typescript" = true ∧
      dependencyUsed ⟨[(["p"], ["p"])], [(["p"], [])], [], []⟩ 1 ["p"] "typescript" = false := by
  decide

/-- Claim C2 (amended): for a dependency name on the exclusion list or prefixed
`@types/`, `dependencyUsed` returns true whenever at least one candidate source
file was collected, regardless of any file's contents; with no candidate files
it returns false. -/
theorem c2_excluded_amended (fs : FS) (fuel : Nat) (cwd : FPath) (dep : String)
    (files vis : List FPath)
    (hdep : (exclusions.contains dep || strStarts "@types/".data dep.data) = true)
    (hget : getFiles fs fuel cwd [] = some (files, vis)) (hne : files ≠ []) :
    dependencyUsed fs fuel cwd dep = true := by
  unfold dependencyUsed
  rw [hget]
  cases files with
  | nil => exact absurd rfl hne
  | cons f t =>
    simp only [hdep]
    simp

/-- Witness for C2 (amended): one collected file, contents irrelevant, an
`@types/`-scoped name. -/
theorem c2_excluded_amended_w :
    dependencyUsed ⟨[(["p"], ["p"])], [(["p"], ["a.js"])],
      [((["p", "a.js"] : FPath), EntryKind.file)], []⟩ 2 ["p"] "@types/node" = true :=
  c2_excluded_amended _ 2 ["p"] "@types/node" [["p", "a.js"]] [["p"]]
    (by decide) (by decide) (by decide)

/-! ### Claim C3: inputs that select nothing -/

/-- Counterexample for C3 as stated: input `9` against a one-entry list is not a
valid selection, yet the handler prints no invalid-input message (no such
message exists in the handler) and does issue an uninstall command — for the
literal name `undefined`, rendered from the out-of-range entry. -/
theorem c3_invalid_cex :
    handlerRun ["a"] [] "9" (fun _ => false) (fun _ => false) 0 0 =
      (["npm uninstall undefined "],
        ["- Removed undefined", "\nRemoved 1 dependency in 0.00 seconds."]) ∧
      (["npm uninstall undefined "] : List String) ≠ [] := by
  decide

/-- Claim C3 (amended): for an input line that is not `all` (case-insensitively)
and contains no decimal digit character, the handler terminates issuing no
uninstall command and printing nothing at all — in particular there is no
invalid-input message. -/
theorem c3_invalid_amended (u g : List String) (answer : String)
    (failL failG : Nat → Bool) (msL msG : Nat)
    (hall : lowerStr answer ≠ "all") (hdig : jsDigits answer = []) :
    handlerRun u g answer failL failG msL msG = ([], []) := by
  have hbeq : (lowerStr answer == "all") = false := by
    simpa using hall
  simp [handlerRun, hbeq, parseSelection, hdig, dedupJS, dedupJSAux, remove]

/-- Witness for C3 (amended): the digit-free input `xyz`. -/
theorem c3_invalid_amended_w :
    handlerRun ["a"] ["b"] "xyz" (fun _ => true) (fun _ => true) 5 7 = ([], []) :=
  c3_invalid_amended ["a"] ["b"] "xyz" (fun _ => true) (fun _ => true) 5 7
    (by decide) (by decide)

/-! ### Claim C7: the seven usage patterns -/

/-- Claim C7: for a dependency that is neither excluded nor `@types/`-scoped,
`dependencyUsed` is true exactly when some collected file's text contains one of
the seven literal patterns built from the name; concretely, a file containing
`import 'lodash'` makes `dependencyUsed` of `lodash` true, while a file
containing only `import 'lodash-es'` leaves it false. -/
theorem c7_patterns :
    (∀ (fs : FS) (fuel : Nat) (cwd : FPath) (dep : String) (files vis : List FPath),
      getFiles fs fuel cwd [] = some (files, vis) →
      (exclusions.contains dep || strStarts "@types/".data dep.data) = false →
      (dependencyUsed fs fuel cwd dep = true ↔
        ∃ f, f ∈ files ∧ matchesUsage (fs.readFile f) dep = true)) ∧
    dependencyUsed ⟨[(["p"], ["p"])], [(["p"], ["f.ts"])],
      [((["p", "f.ts"] : FPath), EntryKind.file)],
      [(["p", "f.ts"], "import " ++ quoted sqc "lodash")]⟩ 2 ["p"] "lodash" = true ∧
    dependencyUsed ⟨[(["p"], ["p"])], [(["p"], ["f.ts"])],
      [((["p", "f.ts"] : FPath), EntryKind.file)],
      [(["p", "f.ts"], "import " ++ quoted sqc "lodash-es")]⟩ 2 ["p"] "lodash" = false := by
  refine ⟨?_, by decide, by decide⟩
  intro fs fuel cwd dep files vis hget hdep
  unfold dependencyUsed
  rw [hget]
  simp only [hdep]
  simp [List.any_eq_true]

/-- Witness for C7: the positive direction of the characterisation at the
`import 'lodash'` file system. -/
theorem c7_patterns_w :
    dependencyUsed ⟨[(["p"], ["p"])], [(["p"], ["f.ts"])],
      [((["p", "f.ts"] : FPath), EntryKind.file)],
      [(["p", "f.ts"], "import " ++ quoted sqc "lodash")]⟩ 2 ["p"] "lodash" = true :=
  (c7_patterns.1 _ 2 ["p"] "lodash" [["p", "f.ts"]] [["p"]] (by decide) (by decide)).mpr
    ⟨["p", "f.ts"], by decide, by decide⟩

/-! ### Claim C9: the candidate list and the unused computation -/

/-- Claim C9: the candidate list is the `dependencies` keys followed by the
`devDependencies` keys with cross-mapping duplicates retained (occurrence counts
add), the unused computation selects a subsequence of it (order preserved), and
on the manifest with one dependency `a` and one devDependency `b`, no source
file and no scripts, it yields `["a", "b"]` in that order. -/
theorem c9_candidates :
    (∀ (fs : FS) (fuel : Nat) (cwd : FPath) (pkg : PackageJSON),
      (computeUnused fs fuel cwd pkg).Sublist (allDeps pkg)) ∧
    (∀ (pkg : PackageJSON) (k : String),
      (allDeps pkg).count k =
        (pkg.dependencies.map (fun e => e.1)).count k +
          (pkg.devDependencies.map (fun e => e.1)).count k) ∧
    computeUnused ⟨[(["p"], ["p"])], [(["p"], [])], [], []⟩ 1 ["p"]
      ⟨[], [("a", "1.0.0")], [("b", "1.0.0")]⟩ = ["a", "b"] := by
  refine ⟨fun fs fuel cwd pkg => List.filter_sublist _, fun pkg k => ?_, by decide⟩
  simp [allDeps, List.count_append]

/-! ### Claim C4: termination of the directory walk -/

/-- The number of real paths the walk could still add to the visited set. -/
def newCount (fs : FS) (visited : List FPath) : Nat :=
  (fs.univ.filter (fun p => decide (p ∉ visited))).length

theorem filterLenLe {α : Type} (p q : α → Bool) :
    ∀ l : List α, (∀ x ∈ l, p x = true → q x = true) →
      (l.filter p).length ≤ (l.filter q).length := by
  intro l
  induction l with
  | nil => intro _; simp
  | cons a t ih =>
    intro himp
    have ht := ih (fun x hx => himp x (List.mem_cons_of_mem _ hx))
    by_cases hpa : p a = true
    · have hqa := himp a (List.mem_cons_self a t) hpa
      simp [List.filter_cons, hpa, hqa]
      omega
    · have hpa2 : p a = false := by
        cases hb : p a
        · rfl
        · exact absurd hb hpa
      cases hqa : q a
      · simp [List.filter_cons, hpa2, hqa]
        omega
      · simp [List.filter_cons, hpa2, hqa]
        omega

theorem filterLenLt {α : Type} (p q : α → Bool) (x : α) :
    ∀ l : List α, x ∈ l → p x = false → q x = true →
      (∀ y ∈ l, p y = true → q y = true) →
      (l.filter p).length < (l.filter q).length := by
  intro l
  induction l with
  | nil => intro hx; exact absurd hx (List.not_mem_nil x)
  | cons a t ih =>
    intro hx hpx hqx himp
    have himpt : ∀ y ∈ t, p y = true → q y = true :=
      fun y hy => himp y (List.mem_cons_of_mem _ hy)
    rcases List.mem_cons.mp hx with rfl | hxt
    · have hle := filterLenLe p q t himpt
      simp [List.filter_cons, hpx, hqx]
      omega
    · have hlt := ih hxt hpx hqx himpt
      by_cases hpa : p a = true
      · have hqa := himp a (List.mem_cons_self a t) hpa
        simp [List.filter_cons, hpa, hqa]
        omega
      · have hpa2 : p a = false := by
          cases hb : p a
          · rfl
          · exact absurd hb hpa
        cases hqa : q a
        · simp [List.filter_cons, hpa2, hqa]
          omega
        · simp [List.filter_cons, hpa2, hqa]
          omega

theorem newCount_le (fs : FS) (visited visited2 : List FPath) (hsub : visited ⊆ visited2) :
    newCount fs visited2 ≤ newCount fs visited := by
  refine filterLenLe _ _ fs.univ ?_
  intro x _
  simp only [decide_eq_true_eq]
  intro hx hmem
  exact hx (hsub hmem)

theorem newCount_lt (fs : FS) (visited : List FPath) (rp : FPath)
    (hu : rp ∈ fs.univ) (hnv : rp ∉ visited) :
    newCount fs (rp :: visited) < newCount fs visited := by
  refine filterLenLt _ _ rp fs.univ hu ?_ ?_ ?_
  · simp
  · simpa using hnv
  · intro y _
    simp only [decide_eq_true_eq]
    intro hy hmem
    exact hy (List.mem_cons_of_mem _ hmem)

theorem realpath_univ (fs : FS) (p q : FPath) (h : fs.realpath p = some q) : q ∈ fs.univ := by
  unfold FS.realpath at h
  cases hf : fs.links.find? (fun e => e.1 == p) with
  | none => rw [hf] at h; exact absurd h (by simp)
  | some e =>
    rw [hf] at h
    have hqe : q = e.2 := by
      simpa using h.symm
    have hmem := List.mem_of_find?_eq_some hf
    exact hqe ▸ List.mem_map_of_mem (fun x => x.2) hmem


/-! Step lemmas unfolding one iteration of the walk, used throughout the
invariant proofs below. -/

theorem gfe_nil (fs : FS) (rec : FPath → List FPath → Option (List FPath × List FPath))
    (rp : FPath) (visited : List FPath) :
    getFilesEntries fs rec rp [] visited = some ([], visited) := rfl

theorem gfe_cons_eq (fs : FS) (rec : FPath → List FPath → Option (List FPath × List FPath))
    (rp : FPath) (e : String) (rest : List String) (visited : List FPath) :
    getFilesEntries fs rec rp (e :: rest) visited =
      match fs.lstat (rp ++ [e]) with
      | none => getFilesEntries fs rec rp rest visited
      | some EntryKind.symlink => getFilesEntries fs rec rp rest visited
      | some EntryKind.dir =>
        if containsSkipPath (rp ++ [e]) then getFilesEntries fs rec rp rest visited
        else
          match rec (rp ++ [e]) visited with
          | none => none
          | some (r1, v1) =>
            match getFilesEntries fs rec rp rest v1 with
            | none => none
            | some (r2, v2) => some (r1 ++ r2, v2)
      | some EntryKind.file =>
        if extensions.contains (extname e) then
          match getFilesEntries fs rec rp rest visited with
          | none => none
          | some (r, v) => some ((rp ++ [e]) :: r, v)
        else getFilesEntries fs rec rp rest visited := rfl

theorem gfe_statnone (fs : FS) (rec : FPath → List FPath → Option (List FPath × List FPath))
    (rp : FPath) (e : String) (rest : List String) (visited : List FPath)
    (hstat : fs.lstat (rp ++ [e]) = none) :
    getFilesEntries fs rec rp (e :: rest) visited = getFilesEntries fs rec rp rest visited := by
  rw [gfe_cons_eq, hstat]

theorem gfe_symlink (fs : FS) (rec : FPath → List FPath → Option (List FPath × List FPath))
    (rp : FPath) (e : String) (rest : List String) (visited : List FPath)
    (hstat : fs.lstat (rp ++ [e]) = some EntryKind.symlink) :
    getFilesEntries fs rec rp (e :: rest) visited = getFilesEntries fs rec rp rest visited := by
  rw [gfe_cons_eq, hstat]

theorem gfe_dirskip (fs : FS) (rec : FPath → List FPath → Option (List FPath × List FPath))
    (rp : FPath) (e : String) (rest : List String) (visited : List FPath)
    (hstat : fs.lstat (rp ++ [e]) = some EntryKind.dir)
    (hskip : containsSkipPath (rp ++ [e]) = true) :
    getFilesEntries fs rec rp (e :: rest) visited = getFilesEntries fs rec rp rest visited := by
  rw [gfe_cons_eq, hstat]
  show (if containsSkipPath (rp ++ [e]) = true then getFilesEntries fs rec rp rest visited
    else
      match rec (rp ++ [e]) visited with
      | none => none
      | some (r1, v1) =>
        match getFilesEntries fs rec rp rest v1 with
        | none => none
        | some (r2, v2) => some (r1 ++ r2, v2)) = getFilesEntries fs rec rp rest visited
  rw [if_pos hskip]

theorem gfe_dir_recnone (fs : FS) (rec : FPath → List FPath → Option (List FPath × List FPath))
    (rp : FPath) (e : String) (rest : List String) (visited : List FPath)
    (hstat : fs.lstat (rp ++ [e]) = some EntryKind.dir)
    (hskip : containsSkipPath (rp ++ [e]) = false)
    (hr1 : rec (rp ++ [e]) visited = none) :
    getFilesEntries fs rec rp (e :: rest) visited = none := by
  rw [gfe_cons_eq, hstat]
  show (if containsSkipPath (rp ++ [e]) = true then getFilesEntries fs rec rp rest visited
    else
      match rec (rp ++ [e]) visited with
      | none => none
      | some (r1, v1) =>
        match getFilesEntries fs rec rp rest v1 with
        | none => none
        | some (r2, v2) => some (r1 ++ r2, v2)) = none
  rw [if_neg (by simp [hskip]), hr1]

theorem gfe_dir_some (fs : FS) (rec : FPath → List FPath → Option (List FPath × List FPath))
    (rp : FPath) (e : String) (rest : List String) (visited r1 v1 : List FPath)
    (hstat : fs.lstat (rp ++ [e]) = some EntryKind.dir)
    (hskip : containsSkipPath (rp ++ [e]) = false)
    (hr1 : rec (rp ++ [e]) visited = some (r1, v1)) :
    getFilesEntries fs rec rp (e :: rest) visited =
      match getFilesEntries fs rec rp rest v1 with
      | none => none
      | some (r2, v2) => some (r1 ++ r2, v2) := by
  rw [gfe_cons_eq, hstat]
  show (if containsSkipPath (rp ++ [e]) = true then getFilesEntries fs rec rp rest visited
    else
      match rec (rp ++ [e]) visited with
      | none => none
      | some (r1, v1) =>
        match getFilesEntries fs rec rp rest v1 with
        | none => none
        | some (r2, v2) => some (r1 ++ r2, v2)) = _
  rw [if_neg (by simp [hskip]), hr1]

theorem gfe_file_ext (fs : FS) (rec : FPath → List FPath → Option (List FPath × List FPath))
    (rp : FPath) (e : String) (rest : List String) (visited : List FPath)
    (hstat : fs.lstat (rp ++ [e]) = some EntryKind.file)
    (hext : extensions.contains (extname e) = true) :
    getFilesEntries fs rec rp (e :: rest) visited =
      match getFilesEntries fs rec rp rest visited with
      | none => none
      | some (r, v) => some ((rp ++ [e]) :: r, v) := by
  rw [gfe_cons_eq, hstat]
  show (if extensions.contains (extname e) = true then
      match getFilesEntries fs rec rp rest visited with
      | none => none
      | some (r, v) => some ((rp ++ [e]) :: r, v)
    else getFilesEntries fs rec rp rest visited) = _
  rw [if_pos hext]

theorem gfe_file_noext (fs : FS) (rec : FPath → List FPath → Option (List FPath × List FPath))
    (rp : FPath) (e : String) (rest : List String) (visited : List FPath)
    (hstat : fs.lstat (rp ++ [e]) = some EntryKind.file)
    (hext : extensions.contains (extname e) = false) :
    getFilesEntries fs rec rp (e :: rest) visited = getFilesEntries fs rec rp rest visited := by
  rw [gfe_cons_eq, hstat]
  show (if extensions.contains (extname e) = true then
      match getFilesEntries fs rec rp rest visited with
      | none => none
      | some (r, v) => some ((rp ++ [e]) :: r, v)
    else getFilesEntries fs rec rp rest visited) = _
  rw [if_neg (show ¬extensions.contains (extname e) = true from fun hc =>
    Bool.false_ne_true (hext ▸ hc))]

theorem gf_succ (fs : FS) (fuel : Nat) (dir : FPath) (visited : List FPath) :
    getFiles fs (fuel + 1) dir visited =
      getFilesGo fs (fun d v => getFiles fs fuel d v) dir visited := rfl

theorem ggo_eq (fs : FS) (rec : FPath → List FPath → Option (List FPath × List FPath))
    (dir : FPath) (visited : List FPath) :
    getFilesGo fs rec dir visited =
      match fs.realpath dir with
      | none => some ([], visited)
      | some rp =>
        if rp ∈ visited then some ([], visited)
        else
          match fs.listDir rp with
          | none => some ([], rp :: visited)
          | some entries =>
            getFilesEntries fs (fun d v => rec d v) rp entries (rp :: visited) := rfl

theorem ggo_rnone (fs : FS) (rec : FPath → List FPath → Option (List FPath × List FPath))
    (dir : FPath) (visited : List FPath) (hr : fs.realpath dir = none) :
    getFilesGo fs rec dir visited = some ([], visited) := by
  rw [ggo_eq, hr]

theorem ggo_vis (fs : FS) (rec : FPath → List FPath → Option (List FPath × List FPath))
    (dir : FPath) (visited : List FPath) (rp : FPath)
    (hr : fs.realpath dir = some rp) (hv : rp ∈ visited) :
    getFilesGo fs rec dir visited = some ([], visited) := by
  rw [ggo_eq, hr]
  show (if rp ∈ visited then some ([], visited)
    else
      match fs.listDir rp with
      | none => some ([], rp :: visited)
      | some entries =>
        getFilesEntries fs (fun d v => rec d v) rp entries (rp :: visited)) = _
  rw [if_pos hv]

theorem ggo_lnone (fs : FS) (rec : FPath → List FPath → Option (List FPath × List FPath))
    (dir : FPath) (visited : List FPath) (rp : FPath)
    (hr : fs.realpath dir = some rp) (hv : rp ∉ visited) (hl : fs.listDir rp = none) :
    getFilesGo fs rec dir visited = some ([], rp :: visited) := by
  rw [ggo_eq, hr]
  show (if rp ∈ visited then some ([], visited)
    else
      match fs.listDir rp with
      | none => some ([], rp :: visited)
      | some entries =>
        getFilesEntries fs (fun d v => rec d v) rp entries (rp :: visited)) = _
  rw [if_neg hv, hl]

theorem ggo_entries (fs : FS) (rec : FPath → List FPath → Option (List FPath × List FPath))
    (dir : FPath) (visited : List FPath) (rp : FPath) (entries : List String)
    (hr : fs.realpath dir = some rp) (hv : rp ∉ visited) (hl : fs.listDir rp = some entries) :
    getFilesGo fs rec dir visited =
      getFilesEntries fs (fun d v => rec d v) rp entries (rp :: visited) := by
  rw [ggo_eq, hr]
  show (if rp ∈ visited then some ([], visited)
    else
      match fs.listDir rp with
      | none => some ([], rp :: visited)
      | some entries =>
        getFilesEntries fs (fun d v => rec d v) rp entries (rp :: visited)) = _
  rw [if_neg hv, hl]

/-- Output invariant of the entries loop, given the same invariant for the
recursive call: the visited set only grows, grows only by real paths, stays
duplicate-free, and every collected result is a plain file. -/
theorem getFilesEntries_out (fs : FS)
    (rec : FPath → List FPath → Option (List FPath × List FPath)) (rp : FPath)
    (hrec : ∀ d v r v2, rec d v = some (r, v2) →
      v ⊆ v2 ∧ (∀ x ∈ v2, x ∈ v ∨ x ∈ fs.univ) ∧ (v.Nodup → v2.Nodup) ∧
        ∀ p ∈ r, fs.lstat p = some EntryKind.file) :
    ∀ (entries : List String) (visited r v2 : List FPath),
      getFilesEntries fs rec rp entries visited = some (r, v2) →
        visited ⊆ v2 ∧ (∀ x ∈ v2, x ∈ visited ∨ x ∈ fs.univ) ∧
          (visited.Nodup → v2.Nodup) ∧ ∀ p ∈ r, fs.lstat p = some EntryKind.file := by
  intro entries
  induction entries with
  | nil =>
    intro visited r v2 h
    rw [gfe_nil] at h
    simp only [Option.some.injEq, Prod.mk.injEq] at h
    obtain ⟨rfl, rfl⟩ := h
    exact ⟨fun a ha => ha, fun x hx => Or.inl hx, id, by simp⟩
  | cons e rest ih =>
    intro visited r v2 h
    cases hstat : fs.lstat (rp ++ [e]) with
    | none =>
      rw [gfe_statnone fs rec rp e rest visited hstat] at h
      exact ih visited r v2 h
    | some k =>
      cases k with
      | symlink =>
        rw [gfe_symlink fs rec rp e rest visited hstat] at h
        exact ih visited r v2 h
      | dir =>
        cases hskip : containsSkipPath (rp ++ [e]) with
        | true =>
          rw [gfe_dirskip fs rec rp e rest visited hstat hskip] at h
          exact ih visited r v2 h
        | false =>
          cases hr1 : rec (rp ++ [e]) visited with
          | none =>
            rw [gfe_dir_recnone fs rec rp e rest visited hstat hskip hr1] at h
            exact absurd h (by simp)
          | some out1 =>
            obtain ⟨r1, v1⟩ := out1
            rw [gfe_dir_some fs rec rp e rest visited r1 v1 hstat hskip hr1] at h
            cases hr2 : getFilesEntries fs rec rp rest v1 with
            | none => rw [hr2] at h; exact absurd h (by simp)
            | some out2 =>
              obtain ⟨r2, vtail⟩ := out2
              rw [hr2] at h
              simp only [Option.some.injEq, Prod.mk.injEq] at h
              obtain ⟨rfl, rfl⟩ := h
              obtain ⟨hs1, hu1, hn1, hf1⟩ := hrec _ _ _ _ hr1
              obtain ⟨hs2, hu2, hn2, hf2⟩ := ih v1 r2 vtail hr2
              refine ⟨fun a ha => hs2 (hs1 ha), ?_, fun hn => hn2 (hn1 hn), ?_⟩
              · intro x hx
                rcases hu2 x hx with hx1 | hx1
                · exact hu1 x hx1
                · exact Or.inr hx1
              · intro p hp
                rcases List.mem_append.mp hp with hp1 | hp1
                · exact hf1 p hp1
                · exact hf2 p hp1
      | file =>
        cases hext : extensions.contains (extname e) with
        | false =>
          rw [gfe_file_noext fs rec rp e rest visited hstat hext] at h
          exact ih visited r v2 h
        | true =>
          rw [gfe_file_ext fs rec rp e rest visited hstat hext] at h
          cases hr2 : getFilesEntries fs rec rp rest visited with
          | none => rw [hr2] at h; exact absurd h (by simp)
          | some out2 =>
            obtain ⟨r2, vtail⟩ := out2
            rw [hr2] at h
            simp only [Option.some.injEq, Prod.mk.injEq] at h
            obtain ⟨rfl, rfl⟩ := h
            obtain ⟨hs2, hu2, hn2, hf2⟩ := ih visited r2 vtail hr2
            refine ⟨hs2, hu2, hn2, ?_⟩
            intro p hp
            rcases List.mem_cons.mp hp with rfl | hp1
            · exact hstat
            · exact hf2 p hp1

/-- Output invariant of the walk itself, by induction on the fuel. -/
theorem getFiles_out (fs : FS) :
    ∀ (fuel : Nat) (dir : FPath) (visited r v2 : List FPath),
      getFiles fs fuel dir visited = some (r, v2) →
        visited ⊆ v2 ∧ (∀ x ∈ v2, x ∈ visited ∨ x ∈ fs.univ) ∧
          (visited.Nodup → v2.Nodup) ∧ ∀ p ∈ r, fs.lstat p = some EntryKind.file := by
  intro fuel
  induction fuel with
  | zero =>
    intro dir visited r v2 h
    exact absurd h (by simp [getFiles])
  | succ fuel ih =>
    intro dir visited r v2 h
    rw [gf_succ] at h
    cases hrpath : fs.realpath dir with
    | none =>
      rw [ggo_rnone fs _ dir visited hrpath] at h
      simp only [Option.some.injEq, Prod.mk.injEq] at h
      obtain ⟨rfl, rfl⟩ := h
      exact ⟨fun a ha => ha, fun x hx => Or.inl hx, id, by simp⟩
    | some rp =>
      have hrpu : rp ∈ fs.univ := realpath_univ fs dir rp hrpath
      by_cases hvis : rp ∈ visited
      · rw [ggo_vis fs _ dir visited rp hrpath hvis] at h
        simp only [Option.some.injEq, Prod.mk.injEq] at h
        obtain ⟨rfl, rfl⟩ := h
        exact ⟨fun a ha => ha, fun x hx => Or.inl hx, id, by simp⟩
      · cases hls : fs.listDir rp with
        | none =>
          rw [ggo_lnone fs _ dir visited rp hrpath hvis hls] at h
          simp only [Option.some.injEq, Prod.mk.injEq] at h
          obtain ⟨rfl, rfl⟩ := h
          refine ⟨fun a ha => List.mem_cons_of_mem _ ha, ?_, ?_, by simp⟩
          · intro x hx
            rcases List.mem_cons.mp hx with rfl | hx1
            · exact Or.inr hrpu
            · exact Or.inl hx1
          · intro hn
            exact List.Nodup.cons hvis hn
        | some entries =>
          rw [ggo_entries fs _ dir visited rp entries hrpath hvis hls] at h
          obtain ⟨hs, hu, hn, hf⟩ :=
            getFilesEntries_out fs (fun d v => getFiles fs fuel d v) rp
              (fun d v r0 v0 hr0 => ih d v r0 v0 hr0) entries (rp :: visited) r v2 h
          refine ⟨fun a ha => hs (List.mem_cons_of_mem _ ha), ?_, ?_, hf⟩
          · intro x hx
            rcases hu x hx with hx1 | hx1
            · rcases List.mem_cons.mp hx1 with rfl | hx2
              · exact Or.inr hrpu
              · exact Or.inl hx2
            · exact Or.inr hx1
          · intro hnd
            exact hn (List.Nodup.cons hvis hnd)

/-- The entries loop never exhausts fuel if the recursive call does not on any
visited set reachable from here (measured by `newCount`). -/
theorem getFilesEntries_some (fs : FS)
    (rec : FPath → List FPath → Option (List FPath × List FPath)) (rp : FPath) (B : Nat)
    (hrecSome : ∀ d v, newCount fs v < B → ∃ out, rec d v = some out)
    (hrecSub : ∀ d v r v2, rec d v = some (r, v2) → v ⊆ v2) :
    ∀ (entries : List String) (visited : List FPath), newCount fs visited < B →
      ∃ out, getFilesEntries fs rec rp entries visited = some out := by
  intro entries
  induction entries with
  | nil => intro visited _; exact ⟨([], visited), gfe_nil fs rec rp visited⟩
  | cons e rest ih =>
    intro visited hcount
    cases hstat : fs.lstat (rp ++ [e]) with
    | none =>
      rw [gfe_statnone fs rec rp e rest visited hstat]
      exact ih visited hcount
    | some k =>
      cases k with
      | symlink =>
        rw [gfe_symlink fs rec rp e rest visited hstat]
        exact ih visited hcount
      | dir =>
        cases hskip : containsSkipPath (rp ++ [e]) with
        | true =>
          rw [gfe_dirskip fs rec rp e rest visited hstat hskip]
          exact ih visited hcount
        | false =>
          obtain ⟨⟨r1, v1⟩, hr1⟩ := hrecSome (rp ++ [e]) visited hcount
          have hsub := hrecSub _ _ _ _ hr1
          have hcount2 : newCount fs v1 < B :=
            Nat.lt_of_le_of_lt (newCount_le fs visited v1 hsub) hcount
          obtain ⟨⟨r2, v2⟩, hr2⟩ := ih v1 hcount2
          rw [gfe_dir_some fs rec rp e rest visited r1 v1 hstat hskip hr1, hr2]
          exact ⟨(r1 ++ r2, v2), rfl⟩
      | file =>
        cases hext : extensions.contains (extname e) with
        | false =>
          rw [gfe_file_noext fs rec rp e rest visited hstat hext]
          exact ih visited hcount
        | true =>
          obtain ⟨⟨r2, v2⟩, hr2⟩ := ih visited hcount
          rw [gfe_file_ext fs rec rp e rest visited hstat hext, hr2]
          exact ⟨((rp ++ [e]) :: r2, v2), rfl⟩

/-- Fuel adequacy: the walk returns a result whenever the fuel exceeds the number
of not-yet-visited real paths. -/
theorem getFiles_some (fs : FS) :
    ∀ (fuel : Nat) (dir : FPath) (visited : List FPath), newCount fs visited < fuel →
      ∃ out, getFiles fs fuel dir visited = some out := by
  intro fuel
  induction fuel with
  | zero => intro dir visited h; omega
  | succ fuel ih =>
    intro dir visited hcount
    rw [gf_succ]
    cases hrpath : fs.realpath dir with
    | none => exact ⟨([], visited), ggo_rnone fs _ dir visited hrpath⟩
    | some rp =>
      by_cases hvis : rp ∈ visited
      · exact ⟨([], visited), ggo_vis fs _ dir visited rp hrpath hvis⟩
      · cases hls : fs.listDir rp with
        | none => exact ⟨([], rp :: visited), ggo_lnone fs _ dir visited rp hrpath hvis hls⟩
        | some entries =>
          have hlt : newCount fs (rp :: visited) < fuel := by
            have h1 := newCount_lt fs visited rp (realpath_univ fs dir rp hrpath) hvis
            omega
          obtain ⟨out, hout⟩ :=
            getFilesEntries_some fs (fun d v => getFiles fs fuel d v) rp fuel
              (fun d v hv => ih d v hv)
              (fun d v r v2 hr => (getFiles_out fs fuel d v r v2 hr).1)
              entries (rp :: visited) hlt
          rw [ggo_entries fs _ dir visited rp entries hrpath hvis hls]
          exact ⟨out, hout⟩

/-- Claim C4: on every (finite) directory tree — symlink cycles included, since a
real path already in the visited set is cut off — the walk terminates with a
finite file list once the fuel exceeds the number of real paths: the result is
`some`, the visited set holds each real directory path at most once, and every
returned path is a plain file (symlink entries are never followed or returned). -/
theorem c4_walk_terminates (fs : FS) (fuel : Nat) (dir : FPath)
    (hfuel : newCount fs [] < fuel) :
    ∃ r v, getFiles fs fuel dir [] = some (r, v) ∧ v.Nodup ∧
      ∀ p ∈ r, fs.lstat p = some EntryKind.file := by
  obtain ⟨⟨r, v⟩, hout⟩ := getFiles_some fs fuel dir [] hfuel
  obtain ⟨_, _, hn, hf⟩ := getFiles_out fs fuel dir [] r v hout
  exact ⟨r, v, hout, hn (by simp), hf⟩

/-- Witness for C4: a file system with a symlink cycle (the subdirectory `sub`
resolves back to the real path of the root) on which the walk still yields a
result. -/
theorem c4_walk_terminates_w :
    ∃ r v,
      getFiles ⟨[(["r"], ["r"]), (["r", "sub"], ["r"])], [(["r"], ["sub", "x.js"])],
        [((["r", "sub"] : FPath), EntryKind.dir), ((["r", "x.js"] : FPath), EntryKind.file)], []⟩
        3 ["r"] [] = some (r, v) ∧
      v.Nodup ∧
      ∀ p ∈ r,
        FS.lstat ⟨[(["r"], ["r"]), (["r", "sub"], ["r"])], [(["r"], ["sub", "x.js"])],
          [((["r", "sub"] : FPath), EntryKind.dir), ((["r", "x.js"] : FPath), EntryKind.file)], []⟩
          p = some EntryKind.file :=
  c4_walk_terminates _ 3 ["r"] (by decide)

/-! ### Claim C6: the node_modules/.vscode/.git skip rule -/

theorem skip_mono (q p : FPath) (h : q <+: p) (hq : containsSkipPath q = true) :
    containsSkipPath p = true := by
  obtain ⟨t, rfl⟩ := h
  unfold containsSkipPath at hq ⊢
  rw [List.any_append, hq]
  rfl

theorem prefix_snoc_cases {α : Type} (q l : List α) (e : α) (h : q <+: l ++ [e]) :
    q = l ++ [e] ∨ q <+: l := by
  obtain ⟨t, ht⟩ := h
  rcases t.eq_nil_or_concat with rfl | ⟨t0, e0, rfl⟩
  · left
    simpa using ht
  · right
    rw [List.concat_eq_append] at ht
    have h3 : (q ++ t0) ++ [e0] = l ++ [e] := by
      rw [List.append_assoc]
      exact ht
    obtain ⟨h4, _⟩ := List.append_inj' h3 rfl
    exact ⟨t0, h4⟩

/-- Every proper initial segment of the path is free of the three skip
substrings. -/
def CleanBelow (p : FPath) : Prop :=
  ∀ q : FPath, q <+: p → q ≠ p → containsSkipPath q = false

theorem cleanBelow_snoc (rp : FPath) (e : String) (hclean : containsSkipPath rp = false) :
    CleanBelow (rp ++ [e]) := by
  intro q hq hne
  rcases prefix_snoc_cases q rp e hq with rfl | hq2
  · exact absurd rfl hne
  · cases hcq : containsSkipPath q with
    | false => rfl
    | true => exact absurd (skip_mono q rp hq2 hcq) (by simp [hclean])

/-- Entries-loop half of the skip invariant: if the current real path is clean
and the recursive call only returns clean-below files from clean directories,
every collected file is clean below. -/
theorem getFilesEntries_clean (fs : FS)
    (rec : FPath → List FPath → Option (List FPath × List FPath)) (rp : FPath)
    (hclean : containsSkipPath rp = false)
    (hrec : ∀ d v r v2, containsSkipPath d = false → rec d v = some (r, v2) →
      ∀ p ∈ r, CleanBelow p) :
    ∀ (entries : List String) (visited r v2 : List FPath),
      getFilesEntries fs rec rp entries visited = some (r, v2) → ∀ p ∈ r, CleanBelow p := by
  intro entries
  induction entries with
  | nil =>
    intro visited r v2 h
    rw [gfe_nil] at h
    simp only [Option.some.injEq, Prod.mk.injEq] at h
    obtain ⟨rfl, rfl⟩ := h
    simp
  | cons e rest ih =>
    intro visited r v2 h
    cases hstat : fs.lstat (rp ++ [e]) with
    | none =>
      rw [gfe_statnone fs rec rp e rest visited hstat] at h
      exact ih visited r v2 h
    | some k =>
      cases k with
      | symlink =>
        rw [gfe_symlink fs rec rp e rest visited hstat] at h
        exact ih visited r v2 h
      | dir =>
        cases hskip : containsSkipPath (rp ++ [e]) with
        | true =>
          rw [gfe_dirskip fs rec rp e rest visited hstat hskip] at h
          exact ih visited r v2 h
        | false =>
          cases hr1 : rec (rp ++ [e]) visited with
          | none =>
            rw [gfe_dir_recnone fs rec rp e rest visited hstat hskip hr1] at h
            exact absurd h (by simp)
          | some out1 =>
            obtain ⟨r1, v1⟩ := out1
            rw [gfe_dir_some fs rec rp e rest visited r1 v1 hstat hskip hr1] at h
            cases hr2 : getFilesEntries fs rec rp rest v1 with
            | none => rw [hr2] at h; exact absurd h (by simp)
            | some out2 =>
              obtain ⟨r2, vtail⟩ := out2
              rw [hr2] at h
              simp only [Option.some.injEq, Prod.mk.injEq] at h
              obtain ⟨rfl, rfl⟩ := h
              intro p hp
              rcases List.mem_append.mp hp with hp1 | hp1
              · exact hrec _ _ _ _ hskip hr1 p hp1
              · exact ih v1 r2 vtail hr2 p hp1
      | file =>
        cases hext : extensions.contains (extname e) with
        | false =>
          rw [gfe_file_noext fs rec rp e rest visited hstat hext] at h
          exact ih visited r v2 h
        | true =>
          rw [gfe_file_ext fs rec rp e rest visited hstat hext] at h
          cases hr2 : getFilesEntries fs rec rp rest visited with
          | none => rw [hr2] at h; exact absurd h (by simp)
          | some out2 =>
            obtain ⟨r2, vtail⟩ := out2
            rw [hr2] at h
            simp only [Option.some.injEq, Prod.mk.injEq] at h
            obtain ⟨rfl, rfl⟩ := h
            intro p hp
            rcases List.mem_cons.mp hp with rfl | hp1
            · exact cleanBelow_snoc rp e hclean
            · exact ih visited r2 vtail hr2 p hp1

/-- Skip invariant of the whole walk, under realpath transparency (no symlink
aliasing) and a clean starting directory. -/
theorem getFiles_clean (fs : FS) (hid : ∀ p q, fs.realpath p = some q → q = p) :
    ∀ (fuel : Nat) (dir : FPath) (visited r v : List FPath),
      containsSkipPath dir = false → getFiles fs fuel dir visited = some (r, v) →
        ∀ p ∈ r, CleanBelow p := by
  intro fuel
  induction fuel with
  | zero =>
    intro dir visited r v _ h
    exact absurd h (by simp [getFiles])
  | succ fuel ih =>
    intro dir visited r v hroot h
    rw [gf_succ] at h
    cases hrpath : fs.realpath dir with
    | none =>
      rw [ggo_rnone fs _ dir visited hrpath] at h
      simp only [Option.some.injEq, Prod.mk.injEq] at h
      obtain ⟨rfl, rfl⟩ := h
      simp
    | some rp =>
      obtain rfl : rp = dir := hid dir rp hrpath
      by_cases hvis : rp ∈ visited
      · rw [ggo_vis fs _ rp visited rp hrpath hvis] at h
        simp only [Option.some.injEq, Prod.mk.injEq] at h
        obtain ⟨rfl, rfl⟩ := h
        simp
      · cases hls : fs.listDir rp with
        | none =>
          rw [ggo_lnone fs _ rp visited rp hrpath hvis hls] at h
          simp only [Option.some.injEq, Prod.mk.injEq] at h
          obtain ⟨rfl, rfl⟩ := h
          simp
        | some entries =>
          rw [ggo_entries fs _ rp visited rp entries hrpath hvis hls] at h
          exact getFilesEntries_clean fs (fun d v => getFiles fs fuel d v) rp hroot
            (fun d v0 r0 v1 hcd hr0 => ih d v0 r0 v1 hcd hr0) entries (rp :: visited) r v h

/-- Counterexample for C6 as stated: with the walk rooted at a directory whose
own path contains `node_modules`, files directly beneath that path are returned
— the skip test only guards descent into subdirectory entries. -/
theorem c6_skip_cex :
    getFiles ⟨[(["node_modules"], ["node_modules"])], [(["node_modules"], ["a.js"])],
      [((["node_modules", "a.js"] : FPath), EntryKind.file)], []⟩ 2 ["node_modules"] [] =
      some ([["node_modules", "a.js"]], [["node_modules"]]) ∧
    containsSkipPath ["node_modules"] = true ∧
    (["node_modules"] : FPath) <+: ["node_modules", "a.js"] ∧
    (["node_modules"] : FPath) ≠ ["node_modules", "a.js"] := by
  refine ⟨by decide, by decide, ⟨["a.js"], rfl⟩, by decide⟩

/-- Many-element diagonal tables give realpath transparency: helper to discharge
the no-aliasing hypothesis on concrete file systems. -/
theorem realpath_id_of_diag (links : List (FPath × FPath))
    (hdiag : ∀ e ∈ links, e.1 = e.2) (dirs : List (FPath × List String))
    (stats : List (FPath × EntryKind)) (contents : List (FPath × String)) :
    ∀ p q, FS.realpath ⟨links, dirs, stats, contents⟩ p = some q → q = p := by
  intro p q h
  unfold FS.realpath at h
  cases hf : List.find? (fun e => e.1 == p) links with
  | none => rw [hf] at h; exact absurd h (by simp)
  | some e =>
    rw [hf] at h
    have he1 : e.1 = e.2 := hdiag e (List.mem_of_find?_eq_some hf)
    have he2 := List.find?_some hf
    have hq : q = e.2 := by simpa using h.symm
    have hp : e.1 = p := by simpa using he2
    rw [hq, ← he1, hp]

/-- Claim C6 (amended): provided symlinks do not alias (every reported real path
equals the queried path) and the walk's root path itself is free of the three
substrings, no returned file lies strictly beneath any path containing
`node_modules`, `.vscode` or `.git` — every subdirectory entry whose constructed
path contains one of them is skipped. -/
theorem c6_skip_amended (fs : FS) (fuel : Nat) (dir : FPath) (r v : List FPath)
    (hid : ∀ p q, fs.realpath p = some q → q = p)
    (hroot : containsSkipPath dir = false)
    (hrun : getFiles fs fuel dir [] = some (r, v)) :
    ∀ p ∈ r, ∀ q : FPath, containsSkipPath q = true → ¬(q <+: p ∧ q ≠ p) := by
  intro p hp q hq hcon
  have hclean := getFiles_clean fs hid fuel dir [] r v hroot hrun p hp q hcon.1 hcon.2
  rw [hclean] at hq
  exact Bool.false_ne_true hq

/-- Witness for C6 (amended): a root with a `node_modules` subdirectory entry,
which is skipped; the returned file `a.js` is beneath no skip-containing path. -/
theorem c6_skip_amended_w :
    ¬((["node_modules"] : FPath) <+: ["r", "a.js"] ∧
      (["node_modules"] : FPath) ≠ ["r", "a.js"]) :=
  c6_skip_amended ⟨[(["r"], ["r"])], [(["r"], ["node_modules", "a.js"])],
      [((["r", "node_modules"] : FPath), EntryKind.dir),
        ((["r", "a.js"] : FPath), EntryKind.file)], []⟩ 2 ["r"] [["r", "a.js"]] [["r"]]
    (realpath_id_of_diag _ (by decide) _ _ _) (by decide) (by decide)
    ["r", "a.js"] (by simp) ["node_modules"] (by decide)

/-! ### Claim C5: in-flight uninstall commands -/

theorem get?_split {α : Type} :
    ∀ (l : List α) (i : Nat) (x : α), l.get? i = some x →
      l = l.take i ++ x :: l.drop (i + 1) ∧ l.eraseIdx i = l.take i ++ l.drop (i + 1) := by
  intro l
  induction l with
  | nil => intro i x h; simp at h
  | cons a t ih =>
    intro i x h
    cases i with
    | zero =>
      simp only [List.get?] at h
      injection h with h1
      subst h1
      simp [List.eraseIdx]
    | succ i =>
      simp only [List.get?] at h
      obtain ⟨h1, h2⟩ := ih i x h
      constructor
      · simpa [List.take, List.drop] using congrArg (a :: ·) h1
      · simpa [List.eraseIdx, List.take] using congrArg (a :: ·) h2

theorem length_filter_bool {β : Type} (f : β → Bool) :
    ∀ l : List β,
      l.length = (l.filter (fun e => f e == false)).length +
        (l.filter (fun e => f e == true)).length := by
  intro l
  induction l with
  | nil => rfl
  | cons a t ih =>
    cases hf : f a <;> simp [List.filter_cons, hf, ih] <;> omega

theorem append_cons_eq_singleton {α : Type} (l1 l2 : List α) (x y : α)
    (h : l1 ++ x :: l2 = [y]) : l1 = [] ∧ x = y ∧ l2 = [] := by
  cases l1 with
  | nil =>
    simp only [List.nil_append] at h
    injection h with h1 h2
    exact ⟨rfl, h1, h2⟩
  | cons a t =>
    simp only [List.cons_append] at h
    injection h with h1 h2
    exact absurd h2 (by simp)

theorem batchInv_mid (deps issuedB : List (Option String))
    (fT fD : List (Option String × List (Option String)))
    (d0 : Option String) (rest0 : List (Option String))
    (hinv : BatchInv deps issuedB (fT ++ (d0, rest0) :: fD)) :
    fT = [] ∧ fD = [] ∧ ∃ pre, deps = pre ++ d0 :: rest0 ∧ issuedB = pre ++ [d0] := by
  rcases hinv with ⟨hfl, _⟩ | ⟨pre, d, rest, hdeps, hiss, hfl⟩
  · exact absurd hfl (by simp)
  · obtain ⟨h1, h2, h3⟩ := append_cons_eq_singleton fT fD (d0, rest0) (d, rest) hfl
    injection h2 with h21 h22
    subst h21
    subst h22
    exact ⟨h1, h3, pre, hdeps, hiss⟩

theorem flightOf_mk (inflight : List (Option String × Bool × List (Option String)))
    (issued : List (Option String × Bool)) (b : Bool) :
    flightOf ⟨inflight, issued⟩ b =
      (inflight.filter (fun e => e.2.1 == b)).map (fun e => (e.1, e.2.2)) := rfl

theorem issuedOf_mk (inflight : List (Option String × Bool × List (Option String)))
    (issued : List (Option String × Bool)) (b : Bool) :
    issuedOf ⟨inflight, issued⟩ b = (issued.filter (fun e => e.2 == b)).map (fun e => e.1) :=
  rfl

/-- The invariant holds right after the synchronous phase of the `"all"` branch. -/
theorem reminv_init (u g : List String) : RemInv u g (allStart u g) := by
  cases u with
  | nil =>
    cases g with
    | nil =>
      exact ⟨Or.inl ⟨rfl, Or.inl rfl⟩, Or.inl ⟨rfl, Or.inl rfl⟩, fun d t h => nomatch h⟩
    | cons e tg =>
      refine ⟨Or.inl ⟨rfl, Or.inl rfl⟩, Or.inr ⟨[], some e, tg.map some, rfl, rfl, rfl⟩,
        fun d t h => nomatch h⟩
  | cons d tu =>
    cases g with
    | nil =>
      refine ⟨Or.inr ⟨[], some d, tu.map some, rfl, rfl, rfl⟩, Or.inl ⟨rfl, Or.inl rfl⟩, ?_⟩
      intro d0 t0 h
      injection h with h1 _
      subst h1
      exact ⟨[], rfl⟩
    | cons e tg =>
      refine ⟨Or.inr ⟨[], some d, tu.map some, rfl, rfl, rfl⟩,
        Or.inr ⟨[], some e, tg.map some, rfl, rfl, rfl⟩, ?_⟩
      intro d0 t0 h
      injection h with h1 _
      subst h1
      exact ⟨[(some e, true)], rfl⟩

theorem flightOf_complete_other (s : ExecState) (i : Nat) (d0 : Option String) (b0 : Bool)
    (rest0 : List (Option String)) (b : Bool) (hb : (b0 == b) = false)
    (hsplit : s.inflight =
      s.inflight.take i ++ (d0, b0, rest0) :: s.inflight.drop (i + 1))
    (herase : s.inflight.eraseIdx i = s.inflight.take i ++ s.inflight.drop (i + 1)) :
    flightOf (execIssue rest0 b0 ⟨s.inflight.eraseIdx i, s.issued⟩) b = flightOf s b := by
  cases rest0 with
  | nil =>
    show flightOf ⟨s.inflight.eraseIdx i, s.issued⟩ b = flightOf s b
    rw [flightOf_mk, herase]
    unfold flightOf
    conv_rhs => rw [hsplit]
    simp [List.filter_append, List.filter_cons, hb]
  | cons r1 rtl =>
    show flightOf ⟨s.inflight.eraseIdx i ++ [(r1, b0, rtl)], s.issued ++ [(r1, b0)]⟩ b =
      flightOf s b
    rw [flightOf_mk, herase]
    unfold flightOf
    conv_rhs => rw [hsplit]
    simp [List.filter_append, List.filter_cons, hb]

theorem issuedOf_complete_other (s : ExecState) (i : Nat) (b0 : Bool)
    (rest0 : List (Option String)) (b : Bool) (hb : (b0 == b) = false) :
    issuedOf (execIssue rest0 b0 ⟨s.inflight.eraseIdx i, s.issued⟩) b = issuedOf s b := by
  cases rest0 with
  | nil => rfl
  | cons r1 rtl =>
    show issuedOf ⟨s.inflight.eraseIdx i ++ [(r1, b0, rtl)], s.issued ++ [(r1, b0)]⟩ b =
      issuedOf s b
    rw [issuedOf_mk]
    unfold issuedOf
    simp [List.filter_append, List.filter_cons, hb]

theorem issued_complete_suffix (s : ExecState) (i : Nat) (b0 : Bool)
    (rest0 : List (Option String)) :
    ∃ tail, (execIssue rest0 b0 ⟨s.inflight.eraseIdx i, s.issued⟩).issued =
      s.issued ++ tail := by
  cases rest0 with
  | nil => exact ⟨[], by simp; rfl⟩
  | cons r1 rtl => exact ⟨[(r1, b0)], rfl⟩

/-- One command completion preserves the event-loop invariant. -/
theorem reminv_step (u g : List String) (s : ExecState) (i : Nat) (hinv : RemInv u g s) :
    RemInv u g (execComplete s i) := by
  unfold execComplete
  cases hget : s.inflight.get? i with
  | none => exact hinv
  | some E =>
    obtain ⟨d0, b0, rest0⟩ := E
    obtain ⟨hsplit, herase⟩ := get?_split s.inflight i (d0, b0, rest0) hget
    obtain ⟨hloc, hglob, hhead⟩ := hinv
    have hheadNew : ∀ d t, u = d :: t →
        ∃ rest, (execIssue rest0 b0 ⟨s.inflight.eraseIdx i, s.issued⟩).issued =
          (some d, false) :: rest := by
      intro d t h
      obtain ⟨rest, hr⟩ := hhead d t h
      obtain ⟨tail, htail⟩ := issued_complete_suffix s i b0 rest0
      exact ⟨rest ++ tail, by rw [htail, hr]; rfl⟩
    cases b0 with
    | false =>
      have hfl : flightOf s false =
          ((s.inflight.take i).filter (fun e => e.2.1 == false)).map (fun e => (e.1, e.2.2)) ++
            (d0, rest0) ::
              ((s.inflight.drop (i + 1)).filter (fun e => e.2.1 == false)).map
                (fun e => (e.1, e.2.2)) := by
        unfold flightOf
        conv_lhs => rw [hsplit]
        simp [List.filter_append, List.filter_cons]
      obtain ⟨hfT, hfD, pre, hdeps, hiss⟩ :=
        batchInv_mid (u.map some) (issuedOf s false) _ _ d0 rest0 (hfl ▸ hloc)
      have hTf : (s.inflight.take i).filter (fun e => e.2.1 == false) = [] :=
        List.eq_nil_of_map_eq_nil hfT
      have hDf : (s.inflight.drop (i + 1)).filter (fun e => e.2.1 == false) = [] :=
        List.eq_nil_of_map_eq_nil hfD
      have hglobNew : BatchInv (g.map some)
          (issuedOf (execIssue rest0 false ⟨s.inflight.eraseIdx i, s.issued⟩) true)
          (flightOf (execIssue rest0 false ⟨s.inflight.eraseIdx i, s.issued⟩) true) := by
        rw [flightOf_complete_other s i d0 false rest0 true rfl hsplit herase,
          issuedOf_complete_other s i false rest0 true rfl]
        exact hglob
      cases rest0 with
      | nil =>
        refine ⟨?_, hglobNew, hheadNew⟩
        have hfl' : flightOf (execIssue [] false ⟨s.inflight.eraseIdx i, s.issued⟩) false = [] := by
          show flightOf ⟨s.inflight.eraseIdx i, s.issued⟩ false = []
          rw [flightOf_mk, herase, List.filter_append, hTf, hDf]
          rfl
        have hiss' : issuedOf (execIssue [] false ⟨s.inflight.eraseIdx i, s.issued⟩) false =
            issuedOf s false := rfl
        rw [hfl', hiss', hiss]
        left
        refine ⟨rfl, Or.inr ?_⟩
        rw [hdeps]
      | cons r1 rtl =>
        refine ⟨?_, hglobNew, hheadNew⟩
        have hfl' : flightOf (execIssue (r1 :: rtl) false ⟨s.inflight.eraseIdx i, s.issued⟩)
            false = [(r1, rtl)] := by
          show flightOf ⟨s.inflight.eraseIdx i ++ [(r1, false, rtl)],
            s.issued ++ [(r1, false)]⟩ false = [(r1, rtl)]
          rw [flightOf_mk, herase, List.filter_append, List.filter_append, hTf, hDf]
          rfl
        have hiss' : issuedOf (execIssue (r1 :: rtl) false ⟨s.inflight.eraseIdx i, s.issued⟩)
            false = issuedOf s false ++ [r1] := by
          show issuedOf ⟨s.inflight.eraseIdx i ++ [(r1, false, rtl)],
            s.issued ++ [(r1, false)]⟩ false = issuedOf s false ++ [r1]
          rw [issuedOf_mk]
          unfold issuedOf
          simp [List.filter_append, List.filter_cons]
        rw [hfl', hiss', hiss]
        right
        refine ⟨pre ++ [d0], r1, rtl, ?_, by simp, rfl⟩
        rw [hdeps]
        simp
    | true =>
      have hfl : flightOf s true =
          ((s.inflight.take i).filter (fun e => e.2.1 == true)).map (fun e => (e.1, e.2.2)) ++
            (d0, rest0) ::
              ((s.inflight.drop (i + 1)).filter (fun e => e.2.1 == true)).map
                (fun e => (e.1, e.2.2)) := by
        unfold flightOf
        conv_lhs => rw [hsplit]
        simp [List.filter_append, List.filter_cons]
      obtain ⟨hfT, hfD, pre, hdeps, hiss⟩ :=
        batchInv_mid (g.map some) (issuedOf s true) _ _ d0 rest0 (hfl ▸ hglob)
      have hTf : (s.inflight.take i).filter (fun e => e.2.1 == true) = [] :=
        List.eq_nil_of_map_eq_nil hfT
      have hDf : (s.inflight.drop (i + 1)).filter (fun e => e.2.1 == true) = [] :=
        List.eq_nil_of_map_eq_nil hfD
      have hlocNew : BatchInv (u.map some)
          (issuedOf (execIssue rest0 true ⟨s.inflight.eraseIdx i, s.issued⟩) false)
          (flightOf (execIssue rest0 true ⟨s.inflight.eraseIdx i, s.issued⟩) false) := by
        rw [flightOf_complete_other s i d0 true rest0 false rfl hsplit herase,
          issuedOf_complete_other s i true rest0 false rfl]
        exact hloc
      cases rest0 with
      | nil =>
        refine ⟨hlocNew, ?_, hheadNew⟩
        have hfl' : flightOf (execIssue [] true ⟨s.inflight.eraseIdx i, s.issued⟩) true = [] := by
          show flightOf ⟨s.inflight.eraseIdx i, s.issued⟩ true = []
          rw [flightOf_mk, herase, List.filter_append, hTf, hDf]
          rfl
        have hiss' : issuedOf (execIssue [] true ⟨s.inflight.eraseIdx i, s.issued⟩) true =
            issuedOf s true := rfl
        rw [hfl', hiss', hiss]
        left
        refine ⟨rfl, Or.inr ?_⟩
        rw [hdeps]
      | cons r1 rtl =>
        refine ⟨hlocNew, ?_, hheadNew⟩
        have hfl' : flightOf (execIssue (r1 :: rtl) true ⟨s.inflight.eraseIdx i, s.issued⟩)
            true = [(r1, rtl)] := by
          show flightOf ⟨s.inflight.eraseIdx i ++ [(r1, true, rtl)],
            s.issued ++ [(r1, true)]⟩ true = [(r1, rtl)]
          rw [flightOf_mk, herase, List.filter_append, List.filter_append, hTf, hDf]
          rfl
        have hiss' : issuedOf (execIssue (r1 :: rtl) true ⟨s.inflight.eraseIdx i, s.issued⟩)
            true = issuedOf s true ++ [r1] := by
          show issuedOf ⟨s.inflight.eraseIdx i ++ [(r1, true, rtl)],
            s.issued ++ [(r1, true)]⟩ true = issuedOf s true ++ [r1]
          rw [issuedOf_mk]
          unfold issuedOf
          simp [List.filter_append, List.filter_cons]
        rw [hfl', hiss', hiss]
        right
        refine ⟨pre ++ [d0], r1, rtl, ?_, by simp, rfl⟩
        rw [hdeps]
        simp

theorem batchInv_len_le (deps issuedB : List (Option String))
    (flightB : List (Option String × List (Option String)))
    (h : BatchInv deps issuedB flightB) : flightB.length ≤ 1 := by
  rcases h with ⟨hfl, _⟩ | ⟨pre, d, rest, _, _, hfl⟩ <;> rw [hfl] <;> simp

theorem batchInv_sprefix (deps issuedB : List (Option String))
    (flightB : List (Option String × List (Option String)))
    (h : BatchInv deps issuedB flightB) : issuedB <+: deps := by
  rcases h with ⟨_, hiss⟩ | ⟨pre, d, rest, hdeps, hiss, _⟩
  · rcases hiss with rfl | rfl
    · exact ⟨deps, rfl⟩
    · exact ⟨[], by simp⟩
  · rw [hdeps, hiss]
    exact ⟨rest, by simp⟩

/-- Claim C5 (amended): in every state the removal phase can reach, each scope
(local and global) has at most one uninstall command in flight at a time — hence
at most two overall, not one: the two `remove` calls run concurrently — each
scope's commands are issued strictly in its list order (the issued commands form
a prefix of the scope's dependency list), and when the local partition is
nonempty its first command is the very first one issued. -/
theorem c5_removal_serial (u g : List String) (s : ExecState)
    (h : ExecReach (allStart u g) s) :
    (flightOf s false).length ≤ 1 ∧ (flightOf s true).length ≤ 1 ∧
      s.inflight.length ≤ 2 ∧
      issuedOf s false <+: u.map some ∧ issuedOf s true <+: g.map some ∧
      ∀ d t, u = d :: t → ∃ rest, s.issued = (some d, false) :: rest := by
  have hreach : RemInv u g s := by
    induction h with
    | refl => exact reminv_init u g
    | step h0 i ih => exact reminv_step u g _ i ih
  obtain ⟨hloc, hglob, hhead⟩ := hreach
  have h1 := batchInv_len_le _ _ _ hloc
  have h2 := batchInv_len_le _ _ _ hglob
  refine ⟨h1, h2, ?_, batchInv_sprefix _ _ _ hloc, batchInv_sprefix _ _ _ hglob, hhead⟩
  have hsum := length_filter_bool (fun e => e.2.1) s.inflight
  have e1 : (flightOf s false).length =
      (s.inflight.filter (fun e => e.2.1 == false)).length := List.length_map _ _
  have e2 : (flightOf s true).length =
      (s.inflight.filter (fun e => e.2.1 == true)).length := List.length_map _ _
  rw [e1] at h1
  rw [e2] at h2
  omega

/-- Counterexample for C5 as stated: right after the synchronous phase of the
`"all"` branch with one local and one global dependency, two uninstall commands
are in flight simultaneously — the second `remove` call starts before the first
one's command completes — and the global command is issued while the local batch
is still in flight. -/
theorem c5_serial_cex :
    (allStart ["a"] ["b"]).inflight.length = 2 ∧
      (allStart ["a"] ["b"]).issued = [(some "a", false), (some "b", true)] := by
  decide

/-- Witness for C5 (amended) at a concrete reachable state. -/
theorem c5_removal_serial_w :
    (flightOf (allStart ["a"] ["b"]) false).length ≤ 1 :=
  (c5_removal_serial ["a"] ["b"] (allStart ["a"] ["b"]) ExecReach.refl).1
